import Mathlib

/-!
# Verification of the metadata-extractor core (`app.py`)

A shallow embedding of the line-oriented heuristic parser in `app.py`:
`clean_line`, the six compiled regular expressions, `find_abstract`,
`find_keywords`, `find_authors` and `parse_file`.

Strings are modelled as `List Char` internally (Lean `String` wraps
`List Char`, so the top-level functions take and return `String`).
Each Python regex is hand-compiled into an executable matcher that
reproduces the engine's leftmost / greedy / backtracking behaviour on the
inputs the program feeds it (single lines produced by `splitlines`, hence
free of newline characters).  Character classes `\s` and `\w` are modelled
by their ASCII portions, matching the ASCII texts the heuristics target;
`[A-Z]`, `[a-z]`, `[A-Z0-9...]` are exact.
-/

/-- ASCII portion of Python `\s` (also the set used by `str.strip()`). -/
def isPySpace (c : Char) : Bool :=
  c == ' ' || c == '\t' || c == '\n' || c == '\r' || c == '\x0b' || c == '\x0c'

/-- ASCII portion of Python `\w` (word characters for `\b` boundaries). -/
def isWordChar (c : Char) : Bool :=
  c.isAlphanum || c == '_'

/-- Lower-casing a single character (`re.IGNORECASE` comparison, ASCII). -/
def lowerC (c : Char) : Char := c.toLower

/-- Python `str.splitlines` on the newline kinds that occur in extracted
text: `\n`, `\r\n` and `\r`.  A trailing terminator produces no empty
final line, and the empty string yields no lines, as in Python. -/
def splitlinesL : List Char → List (List Char)
  | [] => []
  | '\r' :: '\n' :: rest => [] :: splitlinesL rest
  | '\n' :: rest => [] :: splitlinesL rest
  | '\r' :: rest => [] :: splitlinesL rest
  | c :: rest =>
    match splitlinesL rest with
    | [] => [[c]]
    | l :: ls => (c :: l) :: ls

/-- Strip characters satisfying `p` from both ends (Python `str.strip`). -/
def stripEnds (p : Char → Bool) (s : List Char) : List Char :=
  ((s.dropWhile p).reverse.dropWhile p).reverse

/-- `re.sub(r"\s+", " ", s)`: replace each maximal whitespace run by one
space.  The flag records whether the previous character was whitespace. -/
def collapseWs : Bool → List Char → List Char
  | _, [] => []
  | inRun, c :: rest =>
    if isPySpace c then
      if inRun then collapseWs true rest else ' ' :: collapseWs true rest
    else c :: collapseWs false rest

/-- `clean_line(s) = re.sub(r"\s+", " ", s).strip()`. -/
def clean_line (s : List Char) : List Char :=
  stripEnds isPySpace (collapseWs false s)

/-- Case-insensitive literal: strip `pat` (given lower-case) from the
front of the input, returning the remainder on success. -/
def stripCIAux : List Char → List Char → Option (List Char)
  | [], rest => some rest
  | _ :: _, [] => none
  | p :: ps, c :: cs => if lowerC c = p then stripCIAux ps cs else none

/-- The separator class `[:\-–—]` (colon, hyphen, en/em dash). -/
def isSepChar (c : Char) : Bool :=
  c == ':' || c == '-' || c == '–' || c == '—'

/-- Word boundary after a literal that ends in a letter: end of input or
a non-word character next. -/
def boundaryOK (r : List Char) : Bool :=
  match r with
  | [] => true
  | c :: _ => !isWordChar c

/-- A case-insensitive literal word followed by `\b`: after the literal
(which ends in a letter) the next character must be absent or non-word. -/
def litWordB (pat : String) (t : List Char) : Bool :=
  match stripCIAux pat.data t with
  | some r => boundaryOK r
  | none => false

/-- `ABSTRACT_HEAD_PAT = ^\s*abstract\b[:\-–—]?\s*$` (matched
with `re.match`, `re.IGNORECASE`). -/
def ABSTRACT_HEAD_PAT (cs : List Char) : Bool :=
  match stripCIAux "abstract".data (cs.dropWhile isPySpace) with
  | none => false
  | some [] => true
  | some (c :: r) =>
    if isWordChar c then false
    else if isSepChar c then r.all isPySpace
    else (c :: r).all isPySpace

/-- The `\s*(.+)$` tail of the inline pattern on a nonempty newline-free
remainder `v`: greedy `\s*` takes the leading whitespace run; if nothing
is left for `.+` the engine backtracks one whitespace character. -/
def tailGroup (v : List Char) : List Char :=
  match v.dropWhile isPySpace with
  | [] => [v.getLastD ' ']
  | w => w

/-- `ABSTRACT_INLINE_PAT = ^\s*abstract\b[:\-–—]?\s*(.+)$`
(`re.match`, `re.IGNORECASE`), returning capture group 1.  When the
remainder after `abstract` is exactly one separator, the optional
separator class backtracks to empty and `.+` captures the separator. -/
def ABSTRACT_INLINE_PAT (cs : List Char) : Option (List Char) :=
  match stripCIAux "abstract".data (cs.dropWhile isPySpace) with
  | none => none
  | some [] => none
  | some (c :: r) =>
    if isWordChar c then none
    else if isSepChar c then
      match r with
      | [] => some [c]
      | _ :: _ => some (tailGroup r)
    else some (tailGroup (c :: r))

/-- The singular `term` tail of `index\s*terms?`, followed by `\b`. -/
def termAlt (r2 : List Char) : Option (List Char) :=
  match stripCIAux "term".data r2 with
  | some r => if boundaryOK r then some r else none
  | none => none

/-- The `index\s*terms?` alternative followed by `\b`; `terms` is tried
before `term` (greedy `s?`). -/
def indexAlt (t : List Char) : Option (List Char) :=
  match stripCIAux "index".data t with
  | none => none
  | some r1 =>
    let r2 := r1.dropWhile isPySpace
    match stripCIAux "terms".data r2 with
    | some r => if boundaryOK r then some r else termAlt r2
    | none => termAlt r2

/-- The `keyword` alternative (singular) followed by `\b`, else `index`. -/
def kwHeadRestTail (t : List Char) : Option (List Char) :=
  match stripCIAux "keyword".data t with
  | some r => if boundaryOK r then some r else indexAlt t
  | none => indexAlt t

/-- The header alternation `(keywords?|index\s*terms?)` followed by `\b`,
anchored at the start of `t`; returns the remainder after the boundary. -/
def kwHeadRest (t : List Char) : Option (List Char) :=
  match stripCIAux "keywords".data t with
  | some r => if boundaryOK r then some r else kwHeadRestTail t
  | none => kwHeadRestTail t

/-- `KEYWORDS_PAT = ^\s*(keywords?|index\s*terms?)\b\s*[:\-–—]?\s*(.*)$`
(`re.match`, `re.IGNORECASE`), returning capture group 2. -/
def KEYWORDS_PAT (cs : List Char) : Option (List Char) :=
  match kwHeadRest (cs.dropWhile isPySpace) with
  | none => none
  | some r =>
    let a := r.dropWhile isPySpace
    let b := match a with
      | c :: tl => if isSepChar c then tl else a
      | [] => []
    some (b.dropWhile isPySpace)

/-- The `1[\.\s]`-style alternatives of the boundary pattern: digit (or
`I`, case-insensitively) then a dot or whitespace, then `\b`.  The
preceding character is non-word, so the boundary demands that a word
character follow immediately. -/
def numMarkB (d : Char) (t : List Char) : Bool :=
  match t with
  | c :: e :: rest =>
    lowerC c == d && (e == '.' || isPySpace e) &&
      (match rest with
       | [] => false
       | x :: _ => isWordChar x)
  | _ => false

/-- `NEXT_SECTION_PAT = ^\s*(keywords?|index\s*terms?|introduction|background|1[\.\s]|I[\.\s])\b`
(`re.match`, `re.IGNORECASE`). -/
def NEXT_SECTION_PAT (cs : List Char) : Bool :=
  let t := cs.dropWhile isPySpace
  (kwHeadRest t).isSome || litWordB "introduction" t || litWordB "background" t ||
    numMarkB '1' t || numMarkB 'i' t

/-- The shared accumulation loop of `find_abstract` / `find_keywords`:
append cleaned lines until a blank line or a next-section boundary. -/
def accumUntilBoundary : List (List Char) → List (List Char)
  | [] => []
  | l :: rest =>
    if l.all isPySpace || NEXT_SECTION_PAT l then []
    else clean_line l :: accumUntilBoundary rest

/-- Join with single spaces (`" ".join`). -/
def joinSp : List (List Char) → List Char
  | [] => []
  | [x] => x
  | x :: y :: ys => x ++ ' ' :: joinSp (y :: ys)

/-- Join with `", "` (`", ".join`). -/
def joinCS : List (List Char) → List Char
  | [] => []
  | [x] => x
  | x :: y :: ys => x ++ ',' :: ' ' :: joinCS (y :: ys)

/-- The scan loop of `find_abstract`: at the first line matching the
inline pattern seed with its capture and accumulate; otherwise at the
first bare header line accumulate with an empty seed. -/
def abstractScan : List (List Char) → List (List Char)
  | [] => []
  | l :: rest =>
    match ABSTRACT_INLINE_PAT l with
    | some g => clean_line g :: accumUntilBoundary rest
    | none =>
      if ABSTRACT_HEAD_PAT l then accumUntilBoundary rest
      else abstractScan rest

/-- Piece `[0]` of `re.split(r"\b(keywords?|index\s*terms?)\b[:\-–—]?", s, re.IGNORECASE)`:
the text before the first keywords/index-terms marker.  The flag records
whether the previous character is a word character (for the leading `\b`;
every alternative starts with a letter). -/
def takeBeforeKwMarker : List Char → Bool → List Char
  | [], _ => []
  | c :: rest, prevW =>
    if !prevW && (kwHeadRest (c :: rest)).isSome then []
    else c :: takeBeforeKwMarker rest (isWordChar c)

/-- `find_abstract` on the line list. -/
def findAbstractL (lines : List (List Char)) : List Char :=
  stripEnds isPySpace
    (takeBeforeKwMarker (stripEnds isPySpace (joinSp (abstractScan lines))) false)

/-- `find_abstract(text)`. -/
def find_abstract (text : String) : String :=
  ⟨findAbstractL (splitlinesL text.data)⟩

/-- Split on the single-character class `[;,]` (`re.split`). -/
def splitSemiComma : List Char → List (List Char)
  | [] => [[]]
  | c :: rest =>
    if c == ';' || c == ',' then [] :: splitSemiComma rest
    else
      match splitSemiComma rest with
      | [] => [[c]]
      | l :: ls => (c :: l) :: ls

/-- `find_keywords` on the line list. -/
def findKeywordsL : List (List Char) → List Char
  | [] => []
  | l :: rest =>
    match KEYWORDS_PAT l with
    | some g =>
      let collected := clean_line g :: accumUntilBoundary rest
      let kws := stripEnds (· == ';') (stripEnds isPySpace (joinSp collected))
      let parts := (splitSemiComma kws).map
          (stripEnds (fun c => c == ' ' || c == '.' || c == ';'))
      joinCS (parts.filter (· ≠ []))
    | none => findKeywordsL rest

/-- `find_keywords(text)`. -/
def find_keywords (text : String) : String :=
  ⟨findKeywordsL (splitlinesL text.data)⟩

/-- Substring test: is `pat` a contiguous infix of `text`?  (Python `in`.) -/
def hasSub (pat : List Char) (text : List Char) : Bool :=
  pat.isPrefixOf text ||
    (match text with
     | [] => false
     | _ :: rest => hasSub pat rest)

/-- Local-part class `[A-Z0-9._%+-]` of `EMAIL_PAT` (with `IGNORECASE`). -/
def isLocalChar (c : Char) : Bool :=
  c.isAlphanum || c == '.' || c == '_' || c == '%' || c == '+' || c == '-'

/-- Domain class `[A-Z0-9.-]` of `EMAIL_PAT` (with `IGNORECASE`). -/
def isDomChar (c : Char) : Bool :=
  c.isAlphanum || c == '.' || c == '-'

/-- `[A-Z]` under `IGNORECASE`: an ASCII letter. -/
def isAsciiLetter (c : Char) : Bool :=
  c.isUpper || c.isLower

/-- `\.[A-Z]{2,}\b` on the remainder: a greedy letter run of length at
least two whose following character (if any) is non-word. -/
def tldOK (rest : List Char) : Bool :=
  let run := rest.takeWhile isAsciiLetter
  decide (run.length ≥ 2) &&
    (match rest.drop run.length with
     | [] => true
     | c :: _ => !isWordChar c)

/-- Backtracking of the greedy domain run `[A-Z0-9.-]+` before `\.`:
some split of the run at a dot (after at least one domain character)
makes the top-level-domain tail match. -/
def dotSplitAux : List Char → List Char → Bool
  | [], _ => false
  | c :: ds, after => (c == '.' && tldOK (ds ++ after)) || dotSplitAux ds after

/-- The `@domain.tld` part of `EMAIL_PAT` after `@`. -/
def domTry (rest : List Char) : Bool :=
  match rest.takeWhile isDomChar with
  | [] => false
  | _ :: dtail => dotSplitAux dtail (rest.drop (rest.takeWhile isDomChar).length)

/-- One anchored attempt of `EMAIL_PAT` at the current position; `prevW`
tells whether the preceding character is a word character (for the
leading `\b`, which needs exactly one word-character side). -/
def emailAt (s : List Char) (prevW : Bool) : Bool :=
  match s with
  | [] => false
  | c :: _ =>
    let loc := s.takeWhile isLocalChar
    if loc = [] then false
    else if prevW == isWordChar c then false
    else
      match s.drop loc.length with
      | '@' :: rest => domTry rest
      | _ => false

/-- `EMAIL_PAT.search`: try every start position, left to right. -/
def EMAIL_PAT_search : List Char → Bool → Bool
  | [], _ => false
  | c :: rest, prevW => emailAt (c :: rest) prevW || EMAIL_PAT_search rest (isWordChar c)

/-- `dept\.?` with the trailing `\b`: with the dot taken the boundary
needs a word character next; without it, `litWordB "dept"` applies. -/
def deptDotB (s : List Char) : Bool :=
  match stripCIAux "dept.".data s with
  | some (c :: _) => isWordChar c
  | some [] => false
  | none => false

/-- One anchored attempt of the affiliation alternation
`(university|department|dept\.?|institute|laborator|school|college|center|centre)\b`. -/
def affilAltAt (s : List Char) : Bool :=
  litWordB "university" s || litWordB "department" s || deptDotB s || litWordB "dept" s ||
    litWordB "institute" s || litWordB "laborator" s || litWordB "school" s ||
    litWordB "college" s || litWordB "center" s || litWordB "centre" s

/-- `re.search` of the affiliation pattern: every alternative begins with
a letter, so the leading `\b` requires the previous character (if any) to
be non-word. -/
def affilSearch : List Char → Bool → Bool
  | [], _ => false
  | c :: rest, prevW =>
    (!prevW && affilAltAt (c :: rest)) || affilSearch rest (isWordChar c)

/-- Greedy parse of the `(?:\s+[A-Z][a-z]+)+` units of `NAME_PAT`:
returns the list of parsed units (each `whitespace ++ capital ++
lowercase-run`) and the remainder.  `fuel` bounds the recursion; each
unit consumes at least three characters, so the input length suffices. -/
def repUnits (fuel : Nat) (s : List Char) : List (List Char) × List Char :=
  match fuel with
  | 0 => ([], s)
  | fuel + 1 =>
    let w := s.takeWhile isPySpace
    if w = [] then ([], s)
    else
      match s.drop w.length with
      | c :: r2 =>
        if c.isUpper then
          let low := r2.takeWhile Char.isLower
          if low = [] then ([], s)
          else
            let next := repUnits fuel (r2.drop low.length)
            ((w ++ c :: low) :: next.1, next.2)
        else ([], s)
      | [] => ([], s)

/-- Close the greedy `+` repetition against the trailing `\b`: keep all
units when the boundary holds after the last one; otherwise drop the
final unit (the boundary then falls before that unit's whitespace), which
needs at least two units. -/
def repClose (units : List (List Char)) (r : List Char) :
    Option (List Char × List Char) :=
  match units, r with
  | [], _ => none
  | _ :: _, [] => some (units.flatten, [])
  | _ :: _, c :: _ =>
    if !isWordChar c then some (units.flatten, r)
    else
      match units.dropLast, units.getLast? with
      | [], _ => none
      | _ :: _, some lastu => some (units.dropLast.flatten, lastu ++ r)
      | _ :: _, none => none

/-- The optional `(?:\s+[A-Z]\.)?` middle-initial group of `NAME_PAT`:
a whitespace run, a capital and a literal dot.  Returns the matched text
and the remainder. -/
def midInitial (after1 : List Char) : Option (List Char × List Char) :=
  let w := after1.takeWhile isPySpace
  if w = [] then none
  else
    match after1.drop w.length with
    | u :: d :: a2 => if u.isUpper ∧ d = '.' then some (w ++ [u, '.'], a2) else none
    | _ => none

/-- One anchored attempt of
`NAME_PAT = \b([A-Z][a-z]+(?:\s+[A-Z]\.)?(?:\s+[A-Z][a-z]+)+)\b`
(no flags: case-sensitive).  The caller has checked the leading `\b`.
The optional middle initial is tried greedily and abandoned when the
mandatory repetition afterwards fails.  Returns group 1 and the
remainder after the match. -/
def nameAt (s : List Char) : Option (List Char × List Char) :=
  match s with
  | [] => none
  | c :: rest =>
    if c.isUpper then
      let low := rest.takeWhile Char.isLower
      if low = [] then none
      else
        let first := c :: low
        let after1 := rest.drop low.length
        let withMid : Option (List Char × List Char) :=
          match midInitial after1 with
          | some (mid, a2) =>
            let reps := repUnits a2.length a2
            match repClose reps.1 reps.2 with
            | some (body, r) => some (first ++ mid ++ body, r)
            | none => none
          | none => none
        match withMid with
        | some res => some res
        | none =>
          let reps := repUnits after1.length after1
          match repClose reps.1 reps.2 with
          | some (body, r) => some (first ++ body, r)
          | none => none
    else none

/-- `NAME_PAT.findall`: scan left to right, taking non-overlapping
matches; matched text always ends in a lowercase letter, so scanning
resumes with a word character on the left. -/
def NAME_PAT_findall (fuel : Nat) (s : List Char) (prevW : Bool) : List (List Char) :=
  match fuel with
  | 0 => []
  | fuel + 1 =>
    match s with
    | [] => []
    | c :: rest =>
      match if !prevW then nameAt (c :: rest) else none with
      | some (m, r) => m :: NAME_PAT_findall fuel r true
      | none => NAME_PAT_findall fuel rest (isWordChar c)

/-- The noise filter of `find_authors`: clean each of the first 40
lines, keep the nonempty ones that carry no email address, no
`http`/`doi` substring, are not an all-caps run longer than six
characters, and mention no affiliation keyword. -/
def filteredScope (lines : List (List Char)) : List (List Char) :=
  ((lines.take 40).map clean_line).filter fun s =>
    !(s = []) &&
    !(EMAIL_PAT_search s false || hasSub "http".data (s.map lowerC) ||
        hasSub "doi".data (s.map lowerC)) &&
    !(decide (s.length > 6) && s.all (fun c => c.toUpper == c)) &&
    !affilSearch s false

/-- The dedup loop of `find_authors`: `seen` is the membership set,
order of first occurrence is kept; each name is `strip`ped first. -/
def dedupFirst (seen : List (List Char)) : List (List Char) → List (List Char)
  | [] => []
  | n :: ns =>
    let nn := stripEnds isPySpace n
    if nn ∈ seen then dedupFirst seen ns
    else nn :: dedupFirst (nn :: seen) ns

/-- The acceptance test of `find_authors` on one candidate line:
at least two name matches (with multiplicity), or exactly one match on a
line containing a comma or `" and "` (case-insensitively). -/
def authorLineAccepts (ln : List Char) : Bool :=
  let names := NAME_PAT_findall (ln.length + 1) ln false
  decide (names.length ≥ 2) ||
    (names.length == 1 && (ln.contains ',' || hasSub " and ".data (ln.map lowerC)))

/-- The scan over the first eight filtered lines: return the joined,
deduplicated names of the first accepted line. -/
def authorsFromLines : List (List Char) → List Char
  | [] => []
  | ln :: rest =>
    if authorLineAccepts ln then
      let ordered := dedupFirst [] (NAME_PAT_findall (ln.length + 1) ln false)
      if ordered ≠ [] then joinCS ordered else authorsFromLines rest
    else authorsFromLines rest

/-- `find_authors(text)`. -/
def find_authors (text : String) : String :=
  ⟨authorsFromLines ((filteredScope (splitlinesL text.data)).take 8)⟩

/-- The output record of `parse_file`. -/
structure ExtractionRecord where
  filename : String
  authors : String
  abstract : String
  keywords : String
  notes : String
deriving DecidableEq

/-- Python `filename.split(".")`. -/
def splitDot : List Char → List (List Char)
  | [] => [[]]
  | c :: rest =>
    if c = '.' then [] :: splitDot rest
    else
      match splitDot rest with
      | [] => [[c]]
      | l :: ls => (c :: l) :: ls

/-- `filename.split(".")[-1].lower()`. -/
def extOf (filename : String) : String :=
  ⟨((splitDot filename.data).getLastD []).map lowerC⟩

/-- `re.sub(r"\s+", "", text)`: drop every whitespace character. -/
def stripAllWs (t : List Char) : List Char :=
  t.filter (fun c => !isPySpace c)

/-- `parse_file(file, filename)`.  The upstream text-extraction
collaborators are opaque here: `pdfText` / `docxText` stand for the
strings `extract_text_from_pdf` / `extract_text_from_docx` would return
for the uploaded file. -/
def parse_file (pdfText docxText : String) (filename : String) : ExtractionRecord :=
  let ext := extOf filename
  if ext = "pdf" then
    { filename := filename, authors := find_authors pdfText,
      abstract := find_abstract pdfText, keywords := find_keywords pdfText,
      notes := if (stripAllWs pdfText.data).length < 200 then
          "Possible scanned/non-searchable PDF." else "" }
  else if ext = "docx" then
    { filename := filename, authors := find_authors docxText,
      abstract := find_abstract docxText, keywords := find_keywords docxText,
      notes := "" }
  else
    { filename := filename, authors := "", abstract := "", keywords := "",
      notes := "Unsupported file type" }

/-- Modelled on the spec side of claim C10: the substring of `s` after
the last `'.'`, or all of `s` when no `'.'` occurs.  Stated directly by
recursion on the characters; compared below against the code's
`split(".")[-1]`. -/
def afterLastDot : List Char → List Char
  | [] => []
  | c :: rest =>
    if '.' ∈ rest then afterLastDot rest
    else if c = '.' then rest
    else c :: rest

/-- The character classes occurring inside a `NAME_PAT` match. -/
def nameChar (x : Char) : Prop :=
  isPySpace x = true ∨ x.isUpper = true ∨ x.isLower = true ∨ x = '.'

/-- Modelled from the spec side of claim C2, for comparison with the
code's `authorLineAccepts`: the first disjunct counts DISTINCT name
matches rather than matches with multiplicity. -/
def specDistinctAccepts (ln : List Char) : Bool :=
  let names := NAME_PAT_findall (ln.length + 1) ln false
  decide (2 ≤ (dedupFirst [] names).length) ||
    (names.length == 1 && (ln.contains ',' || hasSub " and ".data (ln.map lowerC)))

/-- Split on the two-character separator `", "` (the inverse reading of
the `", ".join` used by `find_authors`). -/
def splitCS : List Char → List (List Char)
  | [] => [[]]
  | [c] => [[c]]
  | c :: d :: rest2 =>
    if c = ',' ∧ d = ' ' then [] :: splitCS rest2
    else
      match splitCS (d :: rest2) with
      | [] => [[c]]
      | l :: ls => (c :: l) :: ls

/-- Index of the first occurrence of `x` (length of the list when
absent): the position of a name's first occurrence among the matches. -/
def firstIdx (x : List Char) : List (List Char) → Nat
  | [] => 0
  | y :: ys => if x = y then 0 else firstIdx x ys + 1

/-! ## Auxiliary lemmas -/

theorem splitDot_ne_nil (s : List Char) : splitDot s ≠ [] := by
  cases s with
  | nil => simp [splitDot]
  | cons c rest =>
    unfold splitDot
    by_cases hc : c = '.'
    · simp [hc]
    · rw [if_neg hc]
      rcases h : splitDot rest with _ | ⟨l, ls⟩ <;> simp

theorem splitDot_no_dot (s : List Char) (h : '.' ∉ s) : splitDot s = [s] := by
  induction s with
  | nil => rfl
  | cons c rest ih =>
    have hc : c ≠ '.' := fun hc => h (hc ▸ List.mem_cons_self c rest)
    have hr : '.' ∉ rest := fun hm => h (List.mem_cons_of_mem c hm)
    unfold splitDot
    rw [if_neg hc, ih hr]

theorem splitDot_two_of_dot (s : List Char) (h : '.' ∈ s) :
    2 ≤ (splitDot s).length := by
  induction s with
  | nil => simp at h
  | cons c rest ih =>
    unfold splitDot
    by_cases hc : c = '.'
    · rw [if_pos hc]
      have hne := splitDot_ne_nil rest
      have : 1 ≤ (splitDot rest).length := List.length_pos.mpr hne
      simp only [List.length_cons]
      omega
    · rw [if_neg hc]
      have hr : '.' ∈ rest := by
        rcases List.mem_cons.mp h with h1 | h1
        · exact absurd h1.symm hc
        · exact h1
      have h2 := ih hr
      rcases he : splitDot rest with _ | ⟨l, ls⟩
      · exact absurd he (splitDot_ne_nil rest)
      · rw [he] at h2
        simpa using h2

theorem splitDot_getLastD (s : List Char) :
    (splitDot s).getLastD [] = afterLastDot s := by
  induction s with
  | nil => rfl
  | cons c rest ih =>
    unfold splitDot
    by_cases hc : c = '.'
    · rw [if_pos hc, List.getLastD_cons]
      subst hc
      by_cases hd : '.' ∈ rest
      · rw [show afterLastDot ('.' :: rest) = afterLastDot rest by
          simp [afterLastDot, hd]]
        exact ih
      · rw [splitDot_no_dot rest hd]
        simp [afterLastDot, hd]
    · rw [if_neg hc]
      rcases he : splitDot rest with _ | ⟨l, ls⟩
      · exact absurd he (splitDot_ne_nil rest)
      · by_cases hd : '.' ∈ rest
        · have h2 := splitDot_two_of_dot rest hd
          rw [he] at h2
          rcases ls with _ | ⟨x, xs⟩
          · simp at h2
          · have hstep : ((c :: l) :: x :: xs).getLastD [] = (x :: xs).getLastD [] := by
              simp [List.getLastD_cons]
            rw [hstep]
            have hrhs : afterLastDot (c :: rest) = afterLastDot rest := by
              simp [afterLastDot, hd, hc]
            rw [hrhs, ← ih, he]
            simp [List.getLastD_cons]
        · rw [splitDot_no_dot rest hd] at he
          injection he with h1 h2
          subst h1; subst h2
          simp [List.getLastD_cons, afterLastDot, hd, hc]

/-! ## Claim C5: unsupported file types -/

/-- C5: for every declared type that is neither `pdf` nor `docx`,
`parse_file` returns the record with empty `authors`, `abstract` and
`keywords`, `notes = "Unsupported file type"` and the filename passed
through unchanged.  The result is the same for every `pdfText` /
`docxText`, so neither extractor output is consulted on this path. -/
theorem parse_file_unsupported (pdfText docxText filename : String)
    (h : extOf filename ≠ "pdf" ∧ extOf filename ≠ "docx") :
    parse_file pdfText docxText filename =
      { filename := filename, authors := "", abstract := "", keywords := "",
        notes := "Unsupported file type" } := by
  unfold parse_file
  rw [if_neg h.1, if_neg h.2]

theorem parse_file_unsupported_witness :
    (extOf "paper.txt" ≠ "pdf" ∧ extOf "paper.txt" ≠ "docx") ∧
      parse_file "Some extracted text" "other text" "paper.txt" =
        { filename := "paper.txt", authors := "", abstract := "", keywords := "",
          notes := "Unsupported file type" } :=
  ⟨by decide, parse_file_unsupported "Some extracted text" "other text" "paper.txt" (by decide)⟩

/-! ## Claim C6: the scanned-PDF note -/

/-- C6: on every supported input, `notes` is the scanned-PDF warning
exactly when the declared type is `pdf` and the extracted text has fewer
than 200 characters once all whitespace is removed; otherwise (a pdf
with enough text, or any docx) it is empty — regardless of the other
field contents, which the statement quantifies over. -/
theorem parse_file_pdf_note (pdfText docxText filename : String)
    (h : extOf filename = "pdf" ∨ extOf filename = "docx") :
    (parse_file pdfText docxText filename).notes =
      if extOf filename = "pdf" ∧ (stripAllWs pdfText.data).length < 200 then
        "Possible scanned/non-searchable PDF." else "" := by
  rcases h with h | h
  · simp only [parse_file, h, if_pos, reduceIte, true_and]
  · have hp : extOf filename ≠ "pdf" := by
      rw [h]; decide
    have hno : ¬(extOf filename = "pdf" ∧ (stripAllWs pdfText.data).length < 200) :=
      fun hh => hp hh.1
    unfold parse_file
    rw [if_neg hp, if_pos h, if_neg hno]

theorem parse_file_pdf_note_witness :
    ((extOf "scan.pdf" = "pdf" ∨ extOf "scan.pdf" = "docx") ∧
      (parse_file "tiny" "ignored" "scan.pdf").notes =
        if extOf "scan.pdf" = "pdf" ∧ (stripAllWs "tiny".data).length < 200 then
          "Possible scanned/non-searchable PDF." else "") ∧
    ((extOf "a.docx" = "pdf" ∨ extOf "a.docx" = "docx") ∧
      (parse_file "x" "y" "a.docx").notes =
        if extOf "a.docx" = "pdf" ∧ (stripAllWs "x".data).length < 200 then
          "Possible scanned/non-searchable PDF." else "") :=
  ⟨⟨by decide, parse_file_pdf_note "tiny" "ignored" "scan.pdf" (by decide)⟩,
   ⟨by decide, parse_file_pdf_note "x" "y" "a.docx" (by decide)⟩⟩

/-! ## Claim C7: the keyword-splitting scenario -/

/-- C7: on the line `"Keywords: machine learning; graphs, optimization."`
the extractor splits on semicolons and commas, strips whitespace,
periods and semicolons from each candidate, discards empties, and joins
the survivors with `", "`. -/
theorem find_keywords_scenario_b :
    find_keywords "Keywords: machine learning; graphs, optimization." =
      "machine learning, graphs, optimization" := by
  decide

/-! ## Claim C10: extension dispatch -/

/-- C10: `parse_file` dispatches on the lowercased substring of the
filename after the last dot (`afterLastDot` is the independent statement
of that substring; `splitDot_getLastD` connects it to the code's
`split(".")[-1]`): the unsupported path is taken exactly when that
segment is neither `pdf` nor `docx`.  Uppercase extensions are therefore
supported, and a dotless filename is compared whole (hence unsupported,
as `"README"` shows). -/
theorem parse_file_extension_dispatch :
    (∀ (pdfText docxText filename : String),
      ((parse_file pdfText docxText filename).notes = "Unsupported file type" ↔
        ¬(String.mk ((afterLastDot filename.data).map lowerC) = "pdf" ∨
          String.mk ((afterLastDot filename.data).map lowerC) = "docx"))) ∧
    (parse_file "" "" "paper.PDF").notes ≠ "Unsupported file type" ∧
    (parse_file "" "" "paper.DOCX").notes = "" ∧
    (parse_file "" "" "README").notes = "Unsupported file type" := by
  refine ⟨?_, by decide, by decide, by decide⟩
  intro pdfText docxText filename
  have hext : extOf filename = String.mk ((afterLastDot filename.data).map lowerC) := by
    unfold extOf
    rw [splitDot_getLastD]
  constructor
  · intro hnotes
    intro hcontra
    rw [← hext] at hcontra
    unfold parse_file at hnotes
    rcases hcontra with h | h
    · rw [if_pos h] at hnotes
      dsimp only at hnotes
      by_cases hlen : (stripAllWs pdfText.data).length < 200
      · rw [if_pos hlen] at hnotes
        exact absurd hnotes (by decide)
      · rw [if_neg hlen] at hnotes
        exact absurd hnotes (by decide)
    · by_cases hp : extOf filename = "pdf"
      · rw [hp] at h
        exact absurd h (by decide)
      · rw [if_neg hp, if_pos h] at hnotes
        dsimp only at hnotes
        exact absurd hnotes (by decide)
  · intro hnot
    rw [← hext] at hnot
    push_neg at hnot
    unfold parse_file
    rw [if_neg hnot.1, if_neg hnot.2]

/-! ## Claim C1: next-section boundaries -/

/-- C1 counterexample: the trailing `\b` of `NEXT_SECTION_PAT` has no
word character after `"1."` when a space follows the dot, so the line
`"1. Introduction"` does not match the boundary pattern and its text is
accumulated into the abstract, contrary to the claim. -/
theorem find_abstract_numbered_marker_counterexample :
    find_abstract "Abstract: We propose a method.\n1. Introduction\nThis text follows." =
      "We propose a method. 1. Introduction This text follows." := by
  decide

/-- C1 amended: accumulation is terminated by lines starting with
keyword(s) / index term(s) / introduction / background (at a word
boundary), but a `"1."` or `"I."` marker terminates only when a word
character immediately follows the dot or whitespace (the pattern's
trailing `\b`), so `"1.Introduction"` and `"1 Introduction"` end the
abstract while `"1. Introduction"` does not. -/
theorem next_section_boundary_characterisation :
    (∀ s : List Char, NEXT_SECTION_PAT ('1' :: '.' :: s) =
        (match s with | [] => false | c :: _ => isWordChar c)) ∧
    (∀ s : List Char, NEXT_SECTION_PAT ('I' :: '.' :: s) =
        (match s with | [] => false | c :: _ => isWordChar c)) ∧
    find_abstract "Abstract: We propose a method.\n1.Introduction follows" =
      "We propose a method." ∧
    find_abstract "Abstract: We propose a method.\n1 Introduction\nMore text." =
      "We propose a method." ∧
    find_abstract "Abstract: We propose a method.\nIntroduction\nMore text." =
      "We propose a method." ∧
    find_abstract "Abstract: We propose a method.\nKeywords: graphs\nMore text." =
      "We propose a method." ∧
    find_abstract "Abstract: We propose a method.\nBackground\nMore text." =
      "We propose a method." ∧
    find_abstract "Abstract: We propose a method.\nIndex Terms: graphs\nMore text." =
      "We propose a method." := by
  refine ⟨?_, ?_, by decide, by decide, by decide, by decide, by decide, by decide⟩
  · intro s
    cases s with
    | nil => rfl
    | cons c cs => exact Bool.or_false _
  · intro s
    cases s with
    | nil => rfl
    | cons c cs => rfl

/-! ## Claim C8: inline-abstract classification -/

/-- C8 counterexample: the separator in `ABSTRACT_INLINE_PAT` is
optional, so `"abstract hello"` (no separator) is classified as an
inline abstract with captured fragment `"hello"`, contrary to the
claim's final clause. -/
theorem abstract_inline_no_separator_counterexample :
    ABSTRACT_INLINE_PAT "abstract hello".data = some "hello".data ∧
    find_abstract "abstract hello\nworld\n\nmore" = "hello world" := by
  constructor
  · decide
  · decide

/-- C8 amended: a line is inline exactly when it starts (after optional
whitespace) with `abstract` at a word boundary and at least one further
character follows; the separator is optional.  With a separator and
following text, the trailing text is the captured fragment; without any
text after the (word-boundary-respecting) marker the line is not
inline; with only a separator the backtracking engine captures the
separator itself. -/
theorem abstract_inline_characterisation :
    (∀ (c : Char) (cs : List Char), isPySpace c = false →
      ABSTRACT_INLINE_PAT ("abstract: ".data ++ c :: cs) = some (c :: cs)) ∧
    ABSTRACT_INLINE_PAT "abstract note".data = some "note".data ∧
    ABSTRACT_INLINE_PAT "abstracts: x".data = none ∧
    ABSTRACT_INLINE_PAT "abstract".data = none ∧
    ABSTRACT_INLINE_PAT "abstract:".data = some ":".data := by
  refine ⟨?_, by decide, by decide, by decide, by decide⟩
  intro c cs h
  have h2 : ABSTRACT_INLINE_PAT ("abstract: ".data ++ c :: cs) =
      some (tailGroup (' ' :: c :: cs)) := rfl
  have h3 : (' ' :: c :: cs).dropWhile isPySpace = c :: cs := by
    show (c :: cs).dropWhile isPySpace = c :: cs
    rw [List.dropWhile_cons, h]
    simp
  rw [h2]
  unfold tailGroup
  rw [h3]

theorem abstract_inline_characterisation_witness :
    isPySpace 'W' = false ∧
      ABSTRACT_INLINE_PAT ("abstract: ".data ++ 'W' :: "e study X.".data) =
        some ('W' :: "e study X.".data) :=
  ⟨by decide, abstract_inline_characterisation.1 'W' "e study X.".data (by decide)⟩

/-! ## Claim C4: accumulation stops at the first blank line -/

theorem abstractScan_append_of_no_match (P X : List (List Char))
    (hP : ∀ l ∈ P, ABSTRACT_INLINE_PAT l = none ∧ ABSTRACT_HEAD_PAT l = false) :
    abstractScan (P ++ X) = abstractScan X := by
  induction P with
  | nil => rfl
  | cons l P ih =>
    have hl := hP l (List.mem_cons_self l P)
    have hrest : ∀ m ∈ P, ABSTRACT_INLINE_PAT m = none ∧ ABSTRACT_HEAD_PAT m = false :=
      fun m hm => hP m (List.mem_cons_of_mem l hm)
    show abstractScan (l :: (P ++ X)) = abstractScan X
    rw [show abstractScan (l :: (P ++ X)) =
        (match ABSTRACT_INLINE_PAT l with
         | some g => clean_line g :: accumUntilBoundary (P ++ X)
         | none => if ABSTRACT_HEAD_PAT l then accumUntilBoundary (P ++ X)
                   else abstractScan (P ++ X)) from rfl]
    rw [hl.1, hl.2]
    simpa using ih hrest

theorem accumUntilBoundary_stops (M : List (List Char)) (b : List Char)
    (Z : List (List Char))
    (hM : ∀ l ∈ M, l.all isPySpace = false ∧ NEXT_SECTION_PAT l = false)
    (hb : b.all isPySpace = true) :
    accumUntilBoundary (M ++ b :: Z) = M.map clean_line := by
  induction M with
  | nil =>
    show accumUntilBoundary (b :: Z) = []
    unfold accumUntilBoundary
    rw [hb]
    simp
  | cons l M ih =>
    have hl := hM l (List.mem_cons_self l M)
    have hrest : ∀ m ∈ M, m.all isPySpace = false ∧ NEXT_SECTION_PAT m = false :=
      fun m hm => hM m (List.mem_cons_of_mem l hm)
    show accumUntilBoundary (l :: (M ++ b :: Z)) = clean_line l :: M.map clean_line
    unfold accumUntilBoundary
    rw [hl.1, hl.2]
    simpa using ih hrest

/-- C4: when the abstract accumulation of a line list ends at a blank
line (first match at `hline`, non-boundary content lines `M`, blank
`b`), inserting any further lines `S` after the blank line does not
change the extracted abstract (`find_abstract` is `findAbstractL` after
`splitlines`). -/
theorem find_abstract_blank_line_boundary
    (P M R S : List (List Char)) (hline b : List Char)
    (hP : ∀ l ∈ P, ABSTRACT_INLINE_PAT l = none ∧ ABSTRACT_HEAD_PAT l = false)
    (hH : (ABSTRACT_INLINE_PAT hline).isSome = true ∨ ABSTRACT_HEAD_PAT hline = true)
    (hM : ∀ l ∈ M, l.all isPySpace = false ∧ NEXT_SECTION_PAT l = false)
    (hb : b.all isPySpace = true) :
    findAbstractL (P ++ hline :: (M ++ b :: (S ++ R))) =
      findAbstractL (P ++ hline :: (M ++ b :: R)) := by
  have key : ∀ Z : List (List Char),
      abstractScan (P ++ hline :: (M ++ b :: Z)) =
        (match ABSTRACT_INLINE_PAT hline with
         | some g => clean_line g :: M.map clean_line
         | none => M.map clean_line) := by
    intro Z
    rw [abstractScan_append_of_no_match P _ hP]
    rcases hi : ABSTRACT_INLINE_PAT hline with _ | g
    · have hhead : ABSTRACT_HEAD_PAT hline = true := by
        rcases hH with h | h
        · rw [hi] at h
          simp at h
        · exact h
      rw [show abstractScan (hline :: (M ++ b :: Z)) =
          (match ABSTRACT_INLINE_PAT hline with
           | some g => clean_line g :: accumUntilBoundary (M ++ b :: Z)
           | none => if ABSTRACT_HEAD_PAT hline then accumUntilBoundary (M ++ b :: Z)
                     else abstractScan (M ++ b :: Z)) from rfl]
      rw [hi, hhead]
      simp [accumUntilBoundary_stops M b Z hM hb]
    · rw [show abstractScan (hline :: (M ++ b :: Z)) =
          (match ABSTRACT_INLINE_PAT hline with
           | some g => clean_line g :: accumUntilBoundary (M ++ b :: Z)
           | none => if ABSTRACT_HEAD_PAT hline then accumUntilBoundary (M ++ b :: Z)
                     else abstractScan (M ++ b :: Z)) from rfl]
      rw [hi]
      simp [accumUntilBoundary_stops M b Z hM hb]
  unfold findAbstractL
  rw [key (S ++ R), key R]

theorem find_abstract_blank_line_boundary_witness :
    (∀ l ∈ ([] : List (List Char)),
        ABSTRACT_INLINE_PAT l = none ∧ ABSTRACT_HEAD_PAT l = false) ∧
    ((ABSTRACT_INLINE_PAT "Abstract".data).isSome = true ∨
      ABSTRACT_HEAD_PAT "Abstract".data = true) ∧
    (∀ l ∈ ["We present X.".data],
        l.all isPySpace = false ∧ NEXT_SECTION_PAT l = false) ∧
    ([] : List Char).all isPySpace = true ∧
    findAbstractL (([] : List (List Char)) ++ "Abstract".data ::
        (["We present X.".data] ++ ([] : List Char) ::
          (["Appended paragraph after the blank.".data] ++ []))) =
      findAbstractL (([] : List (List Char)) ++ "Abstract".data ::
        (["We present X.".data] ++ ([] : List Char) :: [])) :=
  ⟨by decide, by decide, by decide, by decide,
   find_abstract_blank_line_boundary [] ["We present X.".data] []
     ["Appended paragraph after the blank.".data] "Abstract".data []
     (by decide) (by decide) (by decide) (by decide)⟩

/-! ## Claim C3: the leading marker is stripped -/

theorem hasSub_iff (pat text : List Char) :
    hasSub pat text = true ↔ pat <:+: text := by
  induction text with
  | nil =>
    unfold hasSub
    simp [List.isPrefixOf_iff_prefix, List.infix_nil, List.prefix_nil]
  | cons c rest ih =>
    unfold hasSub
    rw [Bool.or_eq_true, List.isPrefixOf_iff_prefix, ih, List.infix_cons_iff]

theorem prefix_split (pat a b : List Char) (c : Char) :
    c ∉ pat → pat <+: a ++ c :: b → pat <+: a := by
  induction pat generalizing a with
  | nil => intro _ _; exact List.nil_prefix
  | cons p ps ih =>
    intro hc h
    cases a with
    | nil =>
      rw [List.nil_append] at h
      rcases List.cons_prefix_cons.mp h with ⟨h1, _⟩
      exact absurd h1.symm (fun hh => hc (hh ▸ List.mem_cons_self p ps))
    | cons x a =>
      rcases List.cons_prefix_cons.mp h with ⟨h1, h2⟩
      have hcps : c ∉ ps := fun hm => hc (List.mem_cons_of_mem p hm)
      exact List.cons_prefix_cons.mpr ⟨h1, ih a hcps h2⟩

theorem infix_split (pat a b : List Char) (c : Char) (hc : c ∉ pat) :
    pat <:+: a ++ c :: b → pat <:+: a ∨ pat <:+: b := by
  induction a with
  | nil =>
    intro h
    rw [List.nil_append] at h
    rcases List.infix_cons_iff.mp h with hp | hi
    · cases pat with
      | nil => exact Or.inl (List.nil_infix)
      | cons p ps =>
        rcases List.cons_prefix_cons.mp hp with ⟨h1, _⟩
        exact absurd h1.symm (fun hh => hc (hh ▸ List.mem_cons_self p ps))
    · exact Or.inr hi
  | cons x a ih =>
    intro h
    rcases List.infix_cons_iff.mp h with hp | hi
    · exact Or.inl ((prefix_split pat (x :: a) b c hc hp).isInfix)
    · rcases ih hi with h1 | h1
      · exact Or.inl (List.infix_cons h1)
      · exact Or.inr h1

theorem infix_joinSp (pat : List Char) (hsp : ' ' ∉ pat) (hne : pat ≠ []) :
    ∀ l : List (List Char), pat <:+: joinSp l → ∃ x ∈ l, pat <:+: x := by
  intro l
  induction l with
  | nil =>
    intro h
    rw [show joinSp [] = [] from rfl, List.infix_nil] at h
    exact absurd h hne
  | cons x l ih =>
    cases l with
    | nil =>
      intro h
      exact ⟨x, List.mem_cons_self x [], h⟩
    | cons y ys =>
      intro h
      rw [show joinSp (x :: y :: ys) = x ++ ' ' :: joinSp (y :: ys) from rfl] at h
      rcases infix_split pat x (joinSp (y :: ys)) ' ' hsp h with h1 | h1
      · exact ⟨x, List.mem_cons_self x (y :: ys), h1⟩
      · rcases ih h1 with ⟨z, hz, hzi⟩
        exact ⟨z, List.mem_cons_of_mem x hz, hzi⟩

theorem map_lowerC_joinSp (l : List (List Char)) :
    (joinSp l).map lowerC = joinSp (l.map (List.map lowerC)) := by
  induction l with
  | nil => rfl
  | cons x l ih =>
    cases l with
    | nil => rfl
    | cons y ys =>
      rw [show joinSp (x :: y :: ys) = x ++ ' ' :: joinSp (y :: ys) from rfl]
      rw [List.map_append, List.map_cons]
      rw [show (x :: y :: ys).map (List.map lowerC) =
          x.map lowerC :: (y :: ys).map (List.map lowerC) from rfl]
      rw [show joinSp (x.map lowerC :: (y :: ys).map (List.map lowerC)) =
          x.map lowerC ++ ' ' ::
            joinSp ((y :: ys).map (List.map lowerC)) from by
        rw [List.map_cons]
        rfl]
      rw [ih]
      rfl

theorem stripEnds_infix_self (p : Char → Bool) (s : List Char) :
    stripEnds p s <:+: s := by
  unfold stripEnds
  have h1 : s.dropWhile p <:+ s := List.dropWhile_suffix p
  have h2 : (s.dropWhile p).reverse.dropWhile p <:+ (s.dropWhile p).reverse :=
    List.dropWhile_suffix p
  rcases h2 with ⟨w, hw⟩
  have h3 : ((s.dropWhile p).reverse.dropWhile p).reverse <+: s.dropWhile p := by
    refine ⟨w.reverse, ?_⟩
    have := congrArg List.reverse hw
    rw [List.reverse_append] at this
    simpa using this
  exact h3.isInfix.trans h1.isInfix

theorem takeBeforeKwMarker_prefix_self (s : List Char) (b : Bool) :
    takeBeforeKwMarker s b <+: s := by
  induction s generalizing b with
  | nil => exact List.nil_prefix
  | cons c rest ih =>
    unfold takeBeforeKwMarker
    by_cases h : (!b && (kwHeadRest (c :: rest)).isSome) = true
    · rw [if_pos h]
      exact List.nil_prefix
    · rw [if_neg h]
      exact List.cons_prefix_cons.mpr ⟨rfl, ih (isWordChar c)⟩

/-- C3 counterexample: when the abstract's own content contains the word
`abstract`, so does the output: the claim's universal statement fails. -/
theorem find_abstract_contains_marker_counterexample :
    find_abstract "Abstract: The abstract is short." = "The abstract is short." ∧
    hasSub "abstract".data (find_abstract "Abstract: The abstract is short.").data = true := by
  constructor
  · decide
  · decide

/-- C3 amended: the leading marker of the matched line is consumed, so
the word `abstract` (case-insensitively) can appear in the output only
if it already appears in one of the accumulated content fragments; when
no fragment contains it, the output does not contain it either. -/
theorem find_abstract_marker_stripped (t : String)
    (h : ∀ p ∈ abstractScan (splitlinesL t.data),
        hasSub "abstract".data (p.map lowerC) = false) :
    hasSub "abstract".data ((find_abstract t).data.map lowerC) = false := by
  by_contra hcon
  rw [Bool.not_eq_false, hasSub_iff] at hcon
  have hout : (find_abstract t).data =
      stripEnds isPySpace
        (takeBeforeKwMarker
          (stripEnds isPySpace (joinSp (abstractScan (splitlinesL t.data)))) false) := rfl
  rw [hout] at hcon
  set pieces := abstractScan (splitlinesL t.data) with hp
  have step1 : stripEnds isPySpace
      (takeBeforeKwMarker (stripEnds isPySpace (joinSp pieces)) false) <:+:
        joinSp pieces :=
    (stripEnds_infix_self _ _).trans
      ((takeBeforeKwMarker_prefix_self _ _).isInfix.trans (stripEnds_infix_self _ _))
  have step2 : "abstract".data <:+: (joinSp pieces).map lowerC :=
    hcon.trans (step1.map lowerC)
  rw [map_lowerC_joinSp] at step2
  rcases infix_joinSp "abstract".data (by decide) (by decide) _ step2 with ⟨x, hx, hxi⟩
  rcases List.mem_map.mp hx with ⟨p, hpmem, rfl⟩
  have := h p hpmem
  rw [← Bool.not_eq_true, hasSub_iff] at this
  exact this hxi

theorem find_abstract_marker_stripped_witness :
    (∀ p ∈ abstractScan (splitlinesL "Abstract: We present a new method.".data),
        hasSub "abstract".data (p.map lowerC) = false) ∧
    hasSub "abstract".data
      ((find_abstract "Abstract: We present a new method.").data.map lowerC) = false :=
  ⟨by decide, find_abstract_marker_stripped "Abstract: We present a new method." (by decide)⟩

/-! ## Structure of NAME_PAT matches -/

theorem isUpper_not_pyspace (c : Char) (h : c.isUpper = true) : isPySpace c = false := by
  have h1 : c ≠ ' ' := fun e => by rw [e] at h; exact absurd h (by decide)
  have h2 : c ≠ '\t' := fun e => by rw [e] at h; exact absurd h (by decide)
  have h3 : c ≠ '\n' := fun e => by rw [e] at h; exact absurd h (by decide)
  have h4 : c ≠ '\r' := fun e => by rw [e] at h; exact absurd h (by decide)
  have h5 : c ≠ '\x0b' := fun e => by rw [e] at h; exact absurd h (by decide)
  have h6 : c ≠ '\x0c' := fun e => by rw [e] at h; exact absurd h (by decide)
  simp [isPySpace, h1, h2, h3, h4, h5, h6]

theorem stripEnds_ne_nil (p : Char → Bool) (c : Char) (l : List Char)
    (hc : p c = false) : stripEnds p (c :: l) ≠ [] := by
  unfold stripEnds
  have hdrop : (c :: l).dropWhile p = c :: l := by
    rw [List.dropWhile_cons, hc]
    simp
  rw [hdrop]
  intro hcon
  have h0 : (c :: l).reverse.dropWhile p = [] := by
    have := congrArg List.reverse hcon
    simpa using this
  have hall := List.dropWhile_eq_nil_iff.mp h0
  have hcmem : c ∈ (c :: l).reverse := by simp
  have := hall c hcmem
  rw [hc] at this
  exact absurd this (by simp)

theorem repUnits_chars (fuel : Nat) : ∀ (s u : List Char),
    u ∈ (repUnits fuel s).1 → ∀ x ∈ u, nameChar x := by
  induction fuel with
  | zero => intro s u hu; simp [repUnits] at hu
  | succ fuel ih =>
    intro s u hu x hx
    unfold repUnits at hu
    by_cases hw : s.takeWhile isPySpace = []
    · rw [if_pos hw] at hu; simp at hu
    · rw [if_neg hw] at hu
      rcases hd : s.drop (s.takeWhile isPySpace).length with _ | ⟨c, r2⟩
      · rw [hd] at hu; simp at hu
      · rw [hd] at hu
        dsimp only at hu
        by_cases hup : c.isUpper
        · rw [if_pos hup] at hu
          by_cases hlow : r2.takeWhile Char.isLower = []
          · rw [if_pos hlow] at hu; simp at hu
          · rw [if_neg hlow] at hu
            rcases List.mem_cons.mp hu with h1 | h1
            · subst h1
              rcases List.mem_append.mp hx with h2 | h2
              · exact Or.inl (List.mem_takeWhile_imp h2)
              · rcases List.mem_cons.mp h2 with h3 | h3
                · exact Or.inr (Or.inl (h3 ▸ hup))
                · exact Or.inr (Or.inr (Or.inl (List.mem_takeWhile_imp h3)))
            · exact ih (r2.drop (r2.takeWhile Char.isLower).length) u h1 x hx
        · rw [if_neg hup] at hu; simp at hu

theorem repClose_chars (units : List (List Char)) (r body rest2 : List Char)
    (h : repClose units r = some (body, rest2))
    (hu : ∀ u ∈ units, ∀ x ∈ u, nameChar x) : ∀ x ∈ body, nameChar x := by
  intro x hx
  unfold repClose at h
  rcases units with _ | ⟨u0, us⟩
  · simp at h
  · rcases r with _ | ⟨c, cr⟩
    · dsimp only at h
      rw [Option.some.injEq, Prod.mk.injEq] at h
      rw [← h.1] at hx
      rcases List.mem_flatten.mp hx with ⟨u, hu1, hu2⟩
      exact hu u hu1 x hu2
    · dsimp only at h
      by_cases hw : (!isWordChar c) = true
      · rw [if_pos hw, Option.some.injEq, Prod.mk.injEq] at h
        rw [← h.1] at hx
        rcases List.mem_flatten.mp hx with ⟨u, hu1, hu2⟩
        exact hu u hu1 x hu2
      · rw [if_neg hw] at h
        rcases hdl : (u0 :: us).dropLast with _ | ⟨v, vs⟩
        · rw [hdl] at h; simp at h
        · rw [hdl] at h
          rcases hgl : (u0 :: us).getLast? with _ | lastu
          · rw [hgl] at h; simp at h
          · rw [hgl] at h
            rw [Option.some.injEq, Prod.mk.injEq] at h
            rw [← h.1] at hx
            rcases List.mem_flatten.mp hx with ⟨u, hu1, hu2⟩
            have hsub : u ∈ (u0 :: us) := by
              have := (List.dropLast_sublist (u0 :: us)).subset
              rw [hdl] at this
              exact this hu1
            exact hu u hsub x hu2

theorem midInitial_chars (after1 mid a2 : List Char)
    (h : midInitial after1 = some (mid, a2)) : ∀ x ∈ mid, nameChar x := by
  unfold midInitial at h
  by_cases hw : after1.takeWhile isPySpace = []
  · rw [if_pos hw] at h; simp at h
  · rw [if_neg hw] at h
    rcases hd : after1.drop (after1.takeWhile isPySpace).length with _ | ⟨u, rest3⟩
    · rw [hd] at h; simp at h
    · rw [hd] at h
      rcases rest3 with _ | ⟨d, a3⟩
      · simp at h
      · dsimp only at h
        by_cases hc : u.isUpper = true ∧ d = '.'
        · rw [if_pos hc] at h
          rw [Option.some.injEq, Prod.mk.injEq] at h
          intro x hx
          rw [← h.1] at hx
          rcases List.mem_append.mp hx with h2 | h2
          · exact Or.inl (List.mem_takeWhile_imp h2)
          · rcases List.mem_cons.mp h2 with h3 | h3
            · exact Or.inr (Or.inl (h3 ▸ hc.1))
            · rcases List.mem_cons.mp h3 with h4 | h4
              · exact Or.inr (Or.inr (Or.inr h4))
              · simp at h4
        · rw [if_neg hc] at h; simp at h

theorem nameAt_spec (s m r : List Char) (h : nameAt s = some (m, r)) :
    ∃ c low tail, m = c :: (low ++ tail) ∧ c.isUpper = true ∧
      (∀ x ∈ low, x.isLower = true) ∧ (∀ x ∈ tail, nameChar x) := by
  cases s with
  | nil => exact absurd h (by simp [nameAt])
  | cons c rest =>
    unfold nameAt at h
    dsimp only at h
    by_cases hu : c.isUpper
    · rw [if_pos hu] at h
      by_cases hlow : rest.takeWhile Char.isLower = []
      · rw [if_pos hlow] at h; simp at h
      · rw [if_neg hlow] at h
        rcases hmid : midInitial (rest.drop (rest.takeWhile Char.isLower).length)
            with _ | ⟨mid, a2⟩
        · rw [hmid] at h
          dsimp only at h
          rcases hrc : repClose
              (repUnits (rest.drop (rest.takeWhile Char.isLower).length).length
                (rest.drop (rest.takeWhile Char.isLower).length)).1
              (repUnits (rest.drop (rest.takeWhile Char.isLower).length).length
                (rest.drop (rest.takeWhile Char.isLower).length)).2
            with _ | ⟨body, r2⟩
          · rw [hrc] at h; simp at h
          · rw [hrc] at h
            rw [Option.some.injEq, Prod.mk.injEq] at h
            refine ⟨c, rest.takeWhile Char.isLower, body, ?_, hu, ?_, ?_⟩
            · rw [← h.1]; rfl
            · intro x hx; exact List.mem_takeWhile_imp hx
            · exact repClose_chars _ _ _ _ hrc (fun u hu1 => repUnits_chars _ _ u hu1)
        · rw [hmid] at h
          dsimp only at h
          rcases hrc : repClose (repUnits a2.length a2).1 (repUnits a2.length a2).2
              with _ | ⟨body, r2⟩
          · rw [hrc] at h
            dsimp only at h
            rcases hrc2 : repClose
                (repUnits (rest.drop (rest.takeWhile Char.isLower).length).length
                  (rest.drop (rest.takeWhile Char.isLower).length)).1
                (repUnits (rest.drop (rest.takeWhile Char.isLower).length).length
                  (rest.drop (rest.takeWhile Char.isLower).length)).2
              with _ | ⟨body2, r3⟩
            · rw [hrc2] at h; simp at h
            · rw [hrc2] at h
              rw [Option.some.injEq, Prod.mk.injEq] at h
              refine ⟨c, rest.takeWhile Char.isLower, body2, ?_, hu, ?_, ?_⟩
              · rw [← h.1]; rfl
              · intro x hx; exact List.mem_takeWhile_imp hx
              · exact repClose_chars _ _ _ _ hrc2 (fun u hu1 => repUnits_chars _ _ u hu1)
          · rw [hrc] at h
            rw [Option.some.injEq, Prod.mk.injEq] at h
            refine ⟨c, rest.takeWhile Char.isLower, mid ++ body, ?_, hu, ?_, ?_⟩
            · rw [← h.1]
              rw [show (c :: rest.takeWhile Char.isLower) ++ mid ++ body =
                  c :: (rest.takeWhile Char.isLower ++ (mid ++ body)) by simp]
            · intro x hx; exact List.mem_takeWhile_imp hx
            · intro x hx
              rcases List.mem_append.mp hx with h2 | h2
              · exact midInitial_chars _ _ _ hmid x h2
              · exact repClose_chars _ _ _ _ hrc
                  (fun u hu1 => repUnits_chars _ _ u hu1) x h2
    · rw [if_neg hu] at h; simp at h

theorem NAME_PAT_findall_spec (fuel : Nat) : ∀ (s : List Char) (w : Bool) (m : List Char),
    m ∈ NAME_PAT_findall fuel s w →
    ∃ c low tail, m = c :: (low ++ tail) ∧ c.isUpper = true ∧
      (∀ x ∈ low, x.isLower = true) ∧ (∀ x ∈ tail, nameChar x) := by
  induction fuel with
  | zero => intro s w m hm; simp [NAME_PAT_findall] at hm
  | succ fuel ih =>
    intro s w m hm
    unfold NAME_PAT_findall at hm
    rcases s with _ | ⟨c, rest⟩
    · simp at hm
    · dsimp only at hm
      rcases hat : (if !w then nameAt (c :: rest) else none) with _ | ⟨m0, r0⟩
      · rw [hat] at hm
        exact ih rest (isWordChar c) m hm
      · rw [hat] at hm
        rcases List.mem_cons.mp hm with h1 | h1
        · subst h1
          have hsome : nameAt (c :: rest) = some (m, r0) := by
            by_cases hw : (!w) = true
            · rw [if_pos hw] at hat; exact hat
            · rw [if_neg hw] at hat; exact absurd hat (by simp)
          exact nameAt_spec _ _ _ hsome
        · exact ih r0 true m h1

theorem findall_no_comma (fuel : Nat) (s : List Char) (w : Bool) (m : List Char)
    (hm : m ∈ NAME_PAT_findall fuel s w) : ',' ∉ m := by
  rcases NAME_PAT_findall_spec fuel s w m hm with ⟨c, low, tail, rfl, hc, hlow, htail⟩
  intro hmem
  rcases List.mem_cons.mp hmem with h1 | h1
  · rw [← h1] at hc; exact absurd hc (by decide)
  · rcases List.mem_append.mp h1 with h2 | h2
    · exact absurd (hlow ',' h2) (by decide)
    · rcases htail ',' h2 with h3 | h3 | h3 | h3
      · exact absurd h3 (by decide)
      · exact absurd h3 (by decide)
      · exact absurd h3 (by decide)
      · exact absurd h3 (by decide)

/-! ## Claim C2: the author-line acceptance test -/

theorem dedupFirst_nil_cons (n : List Char) (ns : List (List Char)) :
    dedupFirst [] (n :: ns) =
      stripEnds isPySpace n :: dedupFirst [stripEnds isPySpace n] ns := rfl

theorem joinCS_ne_nil (x : List Char) (xs : List (List Char)) (hx : x ≠ []) :
    joinCS (x :: xs) ≠ [] := by
  cases xs with
  | nil => exact hx
  | cons y ys =>
    show x ++ ',' :: ' ' :: joinCS (y :: ys) ≠ []
    simp

theorem accepts_names_ne_nil (ln : List Char) (h : authorLineAccepts ln = true) :
    NAME_PAT_findall (ln.length + 1) ln false ≠ [] := by
  unfold authorLineAccepts at h
  dsimp only at h
  intro hnil
  rw [hnil] at h
  simp at h

theorem authorsFromLines_ne_nil_iff (cands : List (List Char)) :
    authorsFromLines cands ≠ [] ↔ ∃ ln ∈ cands, authorLineAccepts ln = true := by
  induction cands with
  | nil => simp [authorsFromLines]
  | cons ln rest ih =>
    unfold authorsFromLines
    dsimp only
    by_cases ha : authorLineAccepts ln = true
    · rw [if_pos ha]
      have hne := accepts_names_ne_nil ln ha
      rcases hn : NAME_PAT_findall (ln.length + 1) ln false with _ | ⟨n, ns⟩
      · exact absurd hn hne
      · rw [dedupFirst_nil_cons]
        have hmem : n ∈ NAME_PAT_findall (ln.length + 1) ln false := by
          rw [hn]
          exact List.mem_cons_self n ns
        have hhead : ∃ c l, n = c :: l ∧ c.isUpper = true := by
          rcases NAME_PAT_findall_spec _ _ _ n hmem with
            ⟨c, low, tail, heq, hc, _, _⟩
          exact ⟨c, low ++ tail, heq, hc⟩
        rcases hhead with ⟨c, l, rfl, hc⟩
        have hnn : stripEnds isPySpace (c :: l) ≠ [] :=
          stripEnds_ne_nil _ _ _ (isUpper_not_pyspace c hc)
        rw [if_pos (List.cons_ne_nil _ _)]
        constructor
        · intro _
          exact ⟨ln, List.mem_cons_self _ _, ha⟩
        · intro _
          exact joinCS_ne_nil _ _ hnn
    · rw [if_neg ha, ih]
      constructor
      · rintro ⟨l2, hl2, h2⟩
        exact ⟨l2, List.mem_cons_of_mem _ hl2, h2⟩
      · rintro ⟨l2, hl2, h2⟩
        rcases List.mem_cons.mp hl2 with rfl | hm
        · exact absurd h2 ha
        · exact ⟨l2, hm, h2⟩

/-- C2 counterexample: on the line `"John Smith; John Smith"` the name
pattern finds the same name twice; the code accepts the line (two
matches with multiplicity) and returns `"John Smith"`, whereas the
claim's acceptance condition (two DISTINCT matches, or one match plus
comma or `" and "`) rejects it. -/
theorem author_multiplicity_counterexample :
    find_authors "John Smith; John Smith" = "John Smith" ∧
    authorLineAccepts (clean_line "John Smith; John Smith".data) = true ∧
    specDistinctAccepts (clean_line "John Smith; John Smith".data) = false := by
  refine ⟨by decide, by decide, by decide⟩

/-- C2 amended: a line among the first eight filtered front-matter lines
is accepted exactly when the name pattern yields at least two matches
counted WITH multiplicity, or exactly one match on a line containing a
comma or `" and "` (case-insensitively); `find_authors` returns a
nonempty result precisely when some such line is accepted
(`authorLineAccepts` is the code's test).  The last two conjuncts
exhibit the difference from the distinct-match reading. -/
theorem find_authors_acceptance :
    (∀ t : String, find_authors t ≠ "" ↔
      ∃ ln ∈ (filteredScope (splitlinesL t.data)).take 8,
        authorLineAccepts ln = true) ∧
    authorLineAccepts "John Smith; John Smith".data = true ∧
    specDistinctAccepts "John Smith; John Smith".data = false := by
  refine ⟨?_, by decide, by decide⟩
  intro t
  have hmk : find_authors t = "" ↔
      authorsFromLines ((filteredScope (splitlinesL t.data)).take 8) = [] := by
    constructor
    · intro h
      exact congrArg String.data h
    · intro h
      show String.mk (authorsFromLines ((filteredScope (splitlinesL t.data)).take 8)) = ""
      rw [h]
  constructor
  · intro h
    exact (authorsFromLines_ne_nil_iff _).mp (fun hc => h (hmk.mpr hc))
  · intro h hc
    exact ((authorsFromLines_ne_nil_iff _).mpr h) (hmk.mp hc)

/-! ## Claim C9: deduplication and first-occurrence order -/

theorem splitCS_cons2 (c d : Char) (r2 : List Char) :
    splitCS (c :: d :: r2) =
      if c = ',' ∧ d = ' ' then [] :: splitCS r2
      else
        match splitCS (d :: r2) with
        | [] => [[c]]
        | l :: ls => (c :: l) :: ls := rfl

theorem splitCS_no_comma (x : List Char) (hx : ',' ∉ x) : splitCS x = [x] := by
  induction x with
  | nil => rfl
  | cons c rest ih =>
    have hc : c ≠ ',' := fun e => hx (e ▸ List.mem_cons_self c rest)
    have hrest : ',' ∉ rest := fun hm => hx (List.mem_cons_of_mem c hm)
    cases rest with
    | nil => rfl
    | cons d rest2 =>
      rw [splitCS_cons2, if_neg (fun hh => hc hh.1), ih hrest]

theorem splitCS_append_sep (x r : List Char) (hx : ',' ∉ x) :
    splitCS (x ++ ',' :: ' ' :: r) = x :: splitCS r := by
  induction x with
  | nil =>
    show splitCS (',' :: ' ' :: r) = [] :: splitCS r
    rw [splitCS_cons2, if_pos ⟨rfl, rfl⟩]
  | cons c x2 ih =>
    have hc : c ≠ ',' := fun e => hx (e ▸ List.mem_cons_self c x2)
    have hx2 : ',' ∉ x2 := fun hm => hx (List.mem_cons_of_mem c hm)
    cases x2 with
    | nil =>
      show splitCS (c :: ',' :: ' ' :: r) = [c] :: splitCS r
      have hinner : splitCS (',' :: ' ' :: r) = [] :: splitCS r := by
        rw [splitCS_cons2, if_pos ⟨rfl, rfl⟩]
      rw [splitCS_cons2, if_neg (fun hh => hc hh.1), hinner]
    | cons e x3 =>
      show splitCS (c :: e :: (x3 ++ ',' :: ' ' :: r)) = (c :: e :: x3) :: splitCS r
      have hstep := ih hx2
      rw [show (e :: x3) ++ ',' :: ' ' :: r = e :: (x3 ++ ',' :: ' ' :: r) from rfl] at hstep
      rw [splitCS_cons2, if_neg (fun hh => hc hh.1), hstep]

theorem splitCS_joinCS (l : List (List Char)) (hl : l ≠ [])
    (hc : ∀ x ∈ l, ',' ∉ x) : splitCS (joinCS l) = l := by
  induction l with
  | nil => exact absurd rfl hl
  | cons x xs ih =>
    cases xs with
    | nil =>
      show splitCS (joinCS [x]) = [x]
      exact splitCS_no_comma x (hc x (List.mem_cons_self x []))
    | cons y ys =>
      show splitCS (x ++ ',' :: ' ' :: joinCS (y :: ys)) = x :: (y :: ys)
      rw [splitCS_append_sep x _ (hc x (List.mem_cons_self x (y :: ys)))]
      rw [ih (by simp) (fun z hz => hc z (List.mem_cons_of_mem x hz))]

theorem mem_dedupFirst_map (l : List (List Char)) : ∀ (seen : List (List Char))
    (x : List Char), x ∈ dedupFirst seen l → x ∈ l.map (stripEnds isPySpace) := by
  induction l with
  | nil => intro seen x hx; simp [dedupFirst] at hx
  | cons n ns ih =>
    intro seen x hx
    unfold dedupFirst at hx
    dsimp only at hx
    by_cases hmem : stripEnds isPySpace n ∈ seen
    · rw [if_pos hmem] at hx
      exact List.mem_cons_of_mem _ (ih seen x hx)
    · rw [if_neg hmem] at hx
      rcases List.mem_cons.mp hx with h1 | h1
      · exact h1 ▸ List.mem_cons_self _ _
      · exact List.mem_cons_of_mem _ (ih _ x h1)

theorem mem_dedupFirst_not_seen (l : List (List Char)) : ∀ (seen : List (List Char))
    (x : List Char), x ∈ dedupFirst seen l → x ∉ seen := by
  induction l with
  | nil => intro seen x hx; simp [dedupFirst] at hx
  | cons n ns ih =>
    intro seen x hx
    unfold dedupFirst at hx
    dsimp only at hx
    by_cases hmem : stripEnds isPySpace n ∈ seen
    · rw [if_pos hmem] at hx
      exact ih seen x hx
    · rw [if_neg hmem] at hx
      rcases List.mem_cons.mp hx with h1 | h1
      · exact h1 ▸ hmem
      · intro hs
        exact (ih _ x h1) (List.mem_cons_of_mem _ hs)

theorem firstIdx_cons_self (x : List Char) (ys : List (List Char)) :
    firstIdx x (x :: ys) = 0 := by
  unfold firstIdx
  rw [if_pos rfl]

theorem firstIdx_cons_ne (x y : List Char) (ys : List (List Char)) (h : x ≠ y) :
    firstIdx x (y :: ys) = firstIdx x ys + 1 := by
  show (if x = y then 0 else firstIdx x ys + 1) = firstIdx x ys + 1
  rw [if_neg h]

theorem dedupFirst_pairwise_gen (l : List (List Char)) : ∀ (seen : List (List Char)),
    List.Pairwise (fun a b =>
        firstIdx a (l.map (stripEnds isPySpace)) <
        firstIdx b (l.map (stripEnds isPySpace)))
      (dedupFirst seen l) := by
  induction l with
  | nil => intro seen; simp [dedupFirst]
  | cons n ns ih =>
    intro seen
    unfold dedupFirst
    dsimp only
    by_cases hmem : stripEnds isPySpace n ∈ seen
    · rw [if_pos hmem]
      refine List.Pairwise.imp_of_mem ?_ (ih seen)
      intro a b ha hb hr
      have hane : a ≠ stripEnds isPySpace n := fun e => by
        rw [← e] at hmem
        exact (mem_dedupFirst_not_seen ns seen a ha) hmem
      have hbne : b ≠ stripEnds isPySpace n := fun e => by
        rw [← e] at hmem
        exact (mem_dedupFirst_not_seen ns seen b hb) hmem
      rw [show (n :: ns).map (stripEnds isPySpace) =
          stripEnds isPySpace n :: ns.map (stripEnds isPySpace) from rfl]
      rw [firstIdx_cons_ne _ _ _ hane, firstIdx_cons_ne _ _ _ hbne]
      omega
    · rw [if_neg hmem]
      rw [List.pairwise_cons]
      constructor
      · intro b hb
        have hbne : b ≠ stripEnds isPySpace n := fun e => by
          have := mem_dedupFirst_not_seen ns _ b hb
          rw [e] at this
          exact this (List.mem_cons_self _ _)
        rw [show (n :: ns).map (stripEnds isPySpace) =
            stripEnds isPySpace n :: ns.map (stripEnds isPySpace) from rfl]
        rw [firstIdx_cons_self, firstIdx_cons_ne _ _ _ hbne]
        omega
      · refine List.Pairwise.imp_of_mem ?_ (ih (stripEnds isPySpace n :: seen))
        intro a b ha hb hr
        have hane : a ≠ stripEnds isPySpace n := fun e => by
          have := mem_dedupFirst_not_seen ns _ a ha
          rw [e] at this
          exact this (List.mem_cons_self _ _)
        have hbne : b ≠ stripEnds isPySpace n := fun e => by
          have := mem_dedupFirst_not_seen ns _ b hb
          rw [e] at this
          exact this (List.mem_cons_self _ _)
        rw [show (n :: ns).map (stripEnds isPySpace) =
            stripEnds isPySpace n :: ns.map (stripEnds isPySpace) from rfl]
        rw [firstIdx_cons_ne _ _ _ hane, firstIdx_cons_ne _ _ _ hbne]
        omega

theorem dedupFirst_nodup (l : List (List Char)) : (dedupFirst [] l).Nodup :=
  (dedupFirst_pairwise_gen l []).imp (fun h heq => by rw [heq] at h; exact lt_irrefl _ h)

theorem authorsFromLines_cons (ln : List Char) (rest : List (List Char)) :
    authorsFromLines (ln :: rest) =
      if authorLineAccepts ln = true then
        if dedupFirst [] (NAME_PAT_findall (ln.length + 1) ln false) ≠ [] then
          joinCS (dedupFirst [] (NAME_PAT_findall (ln.length + 1) ln false))
        else authorsFromLines rest
      else authorsFromLines rest := rfl

theorem authorsFromLines_spec (cands : List (List Char)) :
    authorsFromLines cands = [] ∨
      ∃ ln ∈ cands, authorLineAccepts ln = true ∧
        authorsFromLines cands =
          joinCS (dedupFirst [] (NAME_PAT_findall (ln.length + 1) ln false)) ∧
        NAME_PAT_findall (ln.length + 1) ln false ≠ [] := by
  induction cands with
  | nil => exact Or.inl rfl
  | cons ln rest ih =>
    by_cases ha : authorLineAccepts ln = true
    · right
      have hne := accepts_names_ne_nil ln ha
      have hres : authorsFromLines (ln :: rest) =
          joinCS (dedupFirst [] (NAME_PAT_findall (ln.length + 1) ln false)) := by
        rw [authorsFromLines_cons, if_pos ha]
        rcases hn : NAME_PAT_findall (ln.length + 1) ln false with _ | ⟨n, ns⟩
        · exact absurd hn hne
        · rw [dedupFirst_nil_cons, if_pos (List.cons_ne_nil _ _), ← dedupFirst_nil_cons]
      exact ⟨ln, List.mem_cons_self _ _, ha, hres, hne⟩
    · have hskip : authorsFromLines (ln :: rest) = authorsFromLines rest := by
        rw [authorsFromLines_cons, if_neg ha]
      rcases ih with h0 | ⟨ln2, hm2, ha2, heq2, hne2⟩
      · exact Or.inl (hskip.trans h0)
      · exact Or.inr ⟨ln2, List.mem_cons_of_mem _ hm2, ha2, hskip.trans heq2, hne2⟩

/-- C9: the name sequence returned by `find_authors` (read back by
splitting on `", "`) has no repeated entry; moreover on a nonempty
result it equals the first-occurrence deduplication of the accepted
line's name matches, ordered by the position of each entry's first
occurrence among those matches. -/
theorem find_authors_dedup_order (t : String) :
    (splitCS (find_authors t).data).Nodup ∧
    (find_authors t = "" ∨
      ∃ ln ∈ (filteredScope (splitlinesL t.data)).take 8,
        authorLineAccepts ln = true ∧
        splitCS (find_authors t).data =
          dedupFirst [] (NAME_PAT_findall (ln.length + 1) ln false) ∧
        List.Pairwise (fun a b =>
            firstIdx a ((NAME_PAT_findall (ln.length + 1) ln false).map
              (stripEnds isPySpace)) <
            firstIdx b ((NAME_PAT_findall (ln.length + 1) ln false).map
              (stripEnds isPySpace)))
          (splitCS (find_authors t).data)) := by
  have hdata : (find_authors t).data =
      authorsFromLines ((filteredScope (splitlinesL t.data)).take 8) := rfl
  rcases authorsFromLines_spec ((filteredScope (splitlinesL t.data)).take 8) with
    h0 | ⟨ln, hm, ha, heq, hne⟩
  · constructor
    · rw [hdata, h0]
      decide
    · left
      show String.mk (authorsFromLines ((filteredScope (splitlinesL t.data)).take 8)) = ""
      rw [h0]
  · have hset : splitCS (find_authors t).data =
        dedupFirst [] (NAME_PAT_findall (ln.length + 1) ln false) := by
      rw [hdata, heq]
      apply splitCS_joinCS
      · rcases hn : NAME_PAT_findall (ln.length + 1) ln false with _ | ⟨n, ns⟩
        · exact absurd hn hne
        · rw [dedupFirst_nil_cons]
          exact List.cons_ne_nil _ _
      · intro x hx hcomma
        rcases List.mem_map.mp
            (mem_dedupFirst_map (NAME_PAT_findall (ln.length + 1) ln false) [] x hx) with
          ⟨m, hm2, rfl⟩
        have hsub : ',' ∈ m := (stripEnds_infix_self isPySpace m).subset hcomma
        exact (findall_no_comma _ _ _ m hm2) hsub
    refine ⟨?_, Or.inr ⟨ln, hm, ha, hset, ?_⟩⟩
    · rw [hset]
      exact dedupFirst_nodup _
    · rw [hset]
      exact dedupFirst_pairwise_gen _ []
